import Mathlib

/- Shallow embedding of src/lib/utils/stats.ts (attendance aggregation).

Time model: the source manipulates JavaScript Date values in a fixed-offset
local time zone (the code pulls in the date-fns ja locale; Japan Standard
Time has no daylight saving).  An instant is represented by the integer
count of milliseconds shown on the local clock since the local epoch; for a
fixed-offset zone this recoding of absolute instants is a bijection.
Calendar days are the blocks of 86400000 consecutive milliseconds, so the
day key produced by format(date, yyyy-MM-dd) is represented by the floor of
t / 86400000 (an integer day index, in bijection with the date string for
the representable range), startOfDay is the first millisecond of the block
and endOfDay its last millisecond (23:59:59.999, as date-fns defines it).
differenceInMinutes truncates the millisecond difference toward zero (the
date-fns default rounding method), hence Int.tdiv below.

JavaScript Map objects are modelled as association lists in insertion
order: Map.prototype.set overwrites in place when the key is present and
appends otherwise, Map.prototype.get is lookup of the first (unique)
occurrence, Map.prototype.size is the length (keys stay pairwise distinct
by construction).  Arithmetic on minute counts stays integral in the
source, so minutes are Int; the one fractional quantity, averageTime, is a
Rat. -/

def msPerDay : Int := 86400000

def msPerMinute : Int := 60000

/-- Day index of an instant: the integer form of the string produced by
formatDateKey (format with pattern yyyy-MM-dd). -/
def dayKey (t : Int) : Int := t.fdiv msPerDay

/-- Model of date-fns startOfDay: the first millisecond of the calendar day
of t. -/
def startOfDayMs (t : Int) : Int := dayKey t * msPerDay

/-- Model of date-fns endOfDay: the last millisecond (23:59:59.999) of the
calendar day of t. -/
def endOfDayMs (t : Int) : Int := (dayKey t + 1) * msPerDay - 1

/-- Model of date-fns differenceInMinutes: number of full minutes between
two instants, truncated toward zero (the default rounding method). -/
def diffMin (a b : Int) : Int := (a - b).tdiv msPerMinute

/-- Model of Math.round applied to a millisecond difference expressed in
minutes: floor of x + 1/2. -/
def roundMin (m : Int) : Int := (m + 30000).fdiv msPerMinute

/-- Association list in insertion order, modelling a JavaScript Map. -/
abbrev JMap (κ α : Type) : Type := List (κ × α)

/-- Model of Map.prototype.get. -/
def mget {κ α : Type} [DecidableEq κ] : JMap κ α → κ → Option α
  | [], _ => none
  | p :: ps, k => if p.1 = k then some p.2 else mget ps k

/-- Model of Map.prototype.set: overwrite in place when the key is present,
append otherwise. -/
def mset {κ α : Type} [DecidableEq κ] : JMap κ α → κ → α → JMap κ α
  | [], k, v => [(k, v)]
  | p :: ps, k, v => if p.1 = k then (k, v) :: ps else p :: mset ps k v

/-- Lookup with a default, modelling the source pattern map.get(k) || 0. -/
def mgetD {κ α : Type} [DecidableEq κ] (l : JMap κ α) (k : κ) (d : α) : α :=
  (mget l k).getD d

/-- Keys of the map in insertion order. -/
def keys {κ α : Type} (l : JMap κ α) : List κ := l.map Prod.fst

/-- Sum of the integer values of a map. -/
def sumVals {κ : Type} (l : JMap κ Int) : Int := (l.map Prod.snd).sum

/-- Model of the RecordType union of the string literals in and out. -/
inductive RecordType : Type
  | rin
  | rout
deriving DecidableEq

/-- Model of a Record as consulted by stats.ts: only the fields type,
timestamp and duration are ever read there (id, memberId and the
soft-delete flag are not used by the statistics code, so they are
omitted from the embedding). -/
structure Record where
  type : RecordType
  timestamp : Int
  duration : Option Int
deriving DecidableEq

/-- Truthiness of the optional duration field: the guard !record.duration
in the source is false exactly when a duration is present and nonzero. -/
def truthyDur : Option Int → Bool
  | none => false
  | some d => d != 0

/-- Model of splitStayByDays.  The source fills a Map with result.set.  Its
while loop over the intermediate days advances currentDay one day at a
time and stops when the running day key equals the day key of
outTimestamp, so it performs exactly dayKey out - dayKey in - 1 iterations
whenever dayKey in < dayKey out; List.range below has that length.  When
dayKey out < dayKey in (which never happens on the calls the program
makes: see splitTerminates and the claim C6 theorem) the source loop would
never stop, and this total model then returns only the first-day entry. -/
def splitStayByDays (tin tout : Int) : JMap Int Int :=
  if dayKey tin = dayKey tout then
    mset [] (dayKey tin) (diffMin tout tin)
  else
    let first := mset [] (dayKey tin) (diffMin (endOfDayMs tin) tin)
    let mid := (dayKey tout - dayKey tin - 1).toNat
    let withMid := (List.range mid).foldl
      (fun acc (i : Nat) => mset acc (dayKey tin + 1 + (i : Int)) 1440) first
    if dayKey tin + 1 + (mid : Int) = dayKey tout then
      mset withMid (dayKey tout) (diffMin tout (startOfDayMs tout))
    else withMid

/-- Termination condition of the while loop of splitStayByDays: the loop
stops exactly when the stay ends on the same calendar day as it starts or
on a later one. -/
def splitTerminates (tin tout : Int) : Prop :=
  dayKey tin = dayKey tout ∨ dayKey tin < dayKey tout

/-- Step of the selection of the head of the descending-sorted filtered
array: keep the current candidate unless the next record has a strictly
larger timestamp. -/
def pickLatest (best : Option Record) (r : Record) : Option Record :=
  match best with
  | none => some r
  | some b => if b.timestamp < r.timestamp then some r else best

/-- Model of the matching step of calculateStats: filter the in records to
those with timestamp strictly before t (isBefore is strict), sort the
result descending by timestamp and take the first element.  JavaScript
sort is stable, so the head of the sorted array is the first listed
record among those of maximal timestamp; the fold below returns exactly
that element. -/
def findMatchingIn (ins : List Record) (t : Int) : Option Record :=
  (ins.filter (fun r => r.timestamp < t)).foldl pickLatest none

/-- Body of the outRecords.forEach loop of calculateStats: one check-out
record folded into the running dailyMinutes map. -/
def statsStep (inRecords : List Record) (dm : JMap Int Int) (outRecord : Record) :
    JMap Int Int :=
  if truthyDur outRecord.duration = false then dm
  else
    match findMatchingIn inRecords outRecord.timestamp with
    | some m =>
        (splitStayByDays m.timestamp outRecord.timestamp).foldl
          (fun acc p => mset acc p.1 (mgetD acc p.1 0 + p.2)) dm
    | none =>
        mset dm (dayKey outRecord.timestamp)
          (mgetD dm (dayKey outRecord.timestamp) 0 + outRecord.duration.getD 0)

/-- DailyMinutes map built inside calculateStats: records are classified
into inRecords and outRecords in list order, then every out record is
folded in. -/
def dailyMinutesOf (records : List Record) : JMap Int Int :=
  let inRecords := records.filter (fun r => r.type = RecordType.rin)
  let outRecords := records.filter (fun r => r.type = RecordType.rout)
  outRecords.foldl (statsStep inRecords) []

/-- Model of the Stats summary record.  averageTime is the only quantity
the source computes by a fractional division, hence Rat. -/
structure Stats where
  totalTime : Int
  averageTime : Rat
  daysPresent : Nat
deriving DecidableEq

/-- Invariant the specification asserts for every Stats record. -/
def statsInv (s : Stats) : Prop :=
  (0 < s.daysPresent → s.averageTime = (s.totalTime : Rat) / (s.daysPresent : Rat)) ∧
  (s.daysPresent = 0 → s.averageTime = 0)

/-- Model of calculateStats.  The source also accumulates a local
longestStay value that it never returns; that dead computation is not
modelled. -/
def calculateStats (records : List Record) : Stats :=
  if records.length = 0 then
    { totalTime := 0, averageTime := 0, daysPresent := 0 }
  else
    let dm := dailyMinutesOf records
    let totalTime := sumVals dm
    let daysPresent := dm.length
    { totalTime := totalTime
      averageTime := if 0 < daysPresent then (totalTime : Rat) / (daysPresent : Rat) else 0
      daysPresent := daysPresent }

/-- Gregorian date of a day index, by the standard civil-from-days
algorithm (the proleptic Gregorian calendar JavaScript dates use). -/
def civilFromDays (z0 : Int) : Int × Int × Int :=
  let z := z0 + 719468
  let era := z.fdiv 146097
  let doe := z - era * 146097
  let yoe := (doe - doe / 1460 + doe / 36524 - doe / 146096) / 365
  let y := yoe + era * 400
  let doy := doe - (365 * yoe + yoe / 4 - yoe / 100)
  let mp := (5 * doy + 2) / 153
  let d := doy - (153 * mp + 2) / 5 + 1
  let m := mp + (if mp < 10 then 3 else -9)
  (y + (if m ≤ 2 then 1 else 0), m, d)

/-- Day index of a Gregorian date (inverse of civilFromDays). -/
def daysFromCivil (y m d : Int) : Int :=
  let y2 := y - (if m ≤ 2 then 1 else 0)
  let era := y2.fdiv 400
  let yoe := y2 - era * 400
  let doy := (153 * (m + (if 2 < m then (-3 : Int) else 9)) + 2) / 5 + d - 1
  let doe := yoe * 365 + yoe / 4 - yoe / 100 + doy
  era * 146097 + doe - 719468

/-- Calendar year of a day index (the yyyy field of format). -/
def yearOf (z : Int) : Int := (civilFromDays z).1

/-- Month key of formatMonthKey (pattern yyyy-MM), as a year-month pair. -/
def monthKey (z : Int) : Int × Int := ((civilFromDays z).1, (civilFromDays z).2.1)

/-- Day of the week of a day index, 0 = Sunday, as JavaScript getDay gives
it (day index 0, 1970-01-01, was a Thursday). -/
def dayOfWeek (z : Int) : Int := (z + 4) % 7

/-- Model of date-fns startOfWeek with the ja locale (weeks start on
Sunday), at day granularity. -/
def startOfWeekD (z : Int) : Int := z - dayOfWeek z

/-- Model of date-fns getWeekYear with the ja locale options
(weekStartsOn 0 and firstWeekContainsDate 1). -/
def weekYearOf (z : Int) : Int :=
  let y := yearOf z
  if startOfWeekD (daysFromCivil (y + 1) 1 1) ≤ z then y + 1
  else if startOfWeekD (daysFromCivil y 1 1) ≤ z then y
  else y - 1

/-- Model of date-fns getWeek with the ja locale: one-based index of the
week of z inside its week year. -/
def weekOf (z : Int) : Int :=
  (startOfWeekD z - startOfWeekD (daysFromCivil (weekYearOf z) 1 1)) / 7 + 1

/-- Week key of formatWeekKey: the source pattern combines the calendar
year field yyyy (not the week year) with the local week number ww. -/
def weekKey (z : Int) : Int × Int := (yearOf z, weekOf z)

/-- Model of date-fns isWeekend: Saturday or Sunday. -/
def isWeekendDay (z : Int) : Bool := dayOfWeek z == 0 || dayOfWeek z == 6

/-- DailyMinutes map built at the top of calculatePeriodStats: every out
record with a truthy duration contributes its whole stored duration to
the calendar day of its own timestamp (the source normalises the
timestamp to a Date first; instants are already instants here).  The
forEach body is the step function periodStep. -/
def periodStep (dm : JMap Int Int) (r : Record) : JMap Int Int :=
  if r.type = RecordType.rout ∧ truthyDur r.duration = true then
    mset dm (dayKey r.timestamp) (mgetD dm (dayKey r.timestamp) 0 + r.duration.getD 0)
  else dm

def periodDailyMinutes (records : List Record) : JMap Int Int :=
  records.foldl periodStep []

/-- Model of the Set of day keys a rollup bucket has seen: a duplicate-free
list in insertion order. -/
def addDayToSet (s : List Int) (d : Int) : List Int :=
  if d ∈ s then s else s ++ [d]

/-- Shared shape of the weekly and the monthly rollup of
calculatePeriodStats: one forEach over dailyMinutes accumulates
per-bucket totals and per-bucket sets of day keys, then one forEach over
the totals builds the Stats map.  parseISO never fails on the generated
keys, so the catch branch of the source is dead and not modelled. -/
def bucketAccum {κ : Type} [DecidableEq κ] (keyOf : Int → κ) (dm : JMap Int Int) :
    JMap κ Int × JMap κ (List Int) :=
  dm.foldl
    (fun (acc : JMap κ Int × JMap κ (List Int)) p =>
      let k := keyOf p.1
      (mset acc.1 k (mgetD acc.1 k 0 + p.2),
       mset acc.2 k (addDayToSet (mgetD acc.2 k []) p.1)))
    ([], [])

def bucketRollup {κ : Type} [DecidableEq κ] (keyOf : Int → κ) (dm : JMap Int Int) :
    JMap κ Stats :=
  (bucketAccum keyOf dm).1.foldl
    (fun m p =>
      let days := (mgetD (bucketAccum keyOf dm).2 p.1 []).length
      mset m p.1
        { totalTime := p.2
          averageTime := if 0 < days then (p.2 : Rat) / (days : Rat) else 0
          daysPresent := days })
    []

/-- Partition of the daily map into the weekdayMinutes and weekendMinutes
maps (one forEach in the source; parseISO never fails on the generated
keys, so the catch branch is dead). -/
def weekdaySplit (dm : JMap Int Int) : JMap Int Int × JMap Int Int :=
  dm.foldl
    (fun acc p =>
      if isWeekendDay p.1 then (acc.1, mset acc.2 p.1 p.2)
      else (mset acc.1 p.1 p.2, acc.2))
    ([], [])

/-- Model of the PeriodStats record. -/
structure PeriodStats where
  daily : JMap Int Stats
  weekly : JMap (Int × Int) Stats
  monthly : JMap (Int × Int) Stats
  weekday : Stats
  weekend : Stats
  total : Stats
deriving DecidableEq

/-- Per-day Stats map of calculatePeriodStats: the trivial daily entries
with totalTime and averageTime the minutes of the day and daysPresent 1. -/
def dailyStatsOf (dm : JMap Int Int) : JMap Int Stats :=
  dm.foldl
    (fun m p => mset m p.1
      { totalTime := p.2, averageTime := (p.2 : Rat), daysPresent := 1 }) []

/-- Summary record a map of minute counts rolls up to: the pattern the
source repeats for the weekday, weekend and total fields (total minutes,
guarded average, day count = map size). -/
def summaryOf (m : JMap Int Int) : Stats :=
  { totalTime := sumVals m
    averageTime := if 0 < m.length then (sumVals m : Rat) / (m.length : Rat) else 0
    daysPresent := m.length }

/-- Model of calculatePeriodStats.  The startDate and endDate parameters
appear in the source signature and are never read in the body. -/
def calculatePeriodStats (records : List Record) (startDate endDate : Int) :
    PeriodStats :=
  let dailyMinutes := periodDailyMinutes records
  { daily := dailyStatsOf dailyMinutes
    weekly := bucketRollup weekKey dailyMinutes
    monthly := bucketRollup monthKey dailyMinutes
    weekday := summaryOf (weekdaySplit dailyMinutes).1
    weekend := summaryOf (weekdaySplit dailyMinutes).2
    total := summaryOf dailyMinutes }

/-- Stable insertion of a pair into a list already sorted by descending
totalTime: the pair is placed before the first entry whose total is not
strictly larger.  Under the foldr below the inserted pair precedes the
later-listed entries of equal total, matching the stable JavaScript sort
of the source comparator. -/
def insertByTotalDesc (x : String × Int) : List (String × Int) → List (String × Int)
  | [] => [x]
  | y :: ys => if x.2 < y.2 then y :: insertByTotalDesc x ys else x :: y :: ys

/-- Model of compareMembersStats: list the (memberId, totalTime) pairs in
map iteration order, then sort by descending totalTime with a stable
sort. -/
def compareMembersStats (membersStats : JMap String Stats) : List (String × Int) :=
  (membersStats.map (fun p => (p.1, p.2.totalTime))).foldr insertByTotalDesc []

/-- Modelled from the words of the DailyMinutes invariant of the
specification (a claim-side definition, kept for comparison against the
code): the number of minutes a calendar day should receive from a list of
stay intervals, each interval clipped to the 24-hour span of that day. -/
def specClippedDayMinutes (stays : List (Int × Int)) (d : Int) : Int :=
  (stays.map (fun s =>
    (max 0 (min s.2 ((d + 1) * msPerDay) - max s.1 (d * msPerDay))) / msPerMinute)).sum

/- Library of facts about the Map model. -/

theorem mget_mset_self {κ α : Type} [DecidableEq κ] (l : JMap κ α) (k : κ) (v : α) :
    mget (mset l k v) k = some v := by
  induction l with
  | nil => simp [mget, mset]
  | cons p ps ih =>
      by_cases h : p.1 = k
      · simp [mset, h, mget]
      · simp [mset, h, mget, ih]

theorem mget_mset_ne {κ α : Type} [DecidableEq κ] (l : JMap κ α) (k k2 : κ) (v : α)
    (h : k ≠ k2) : mget (mset l k v) k2 = mget l k2 := by
  induction l with
  | nil => simp [mget, mset, h]
  | cons p ps ih =>
      by_cases hp : p.1 = k
      · rw [show mset (p :: ps) k v = (k, v) :: ps by simp [mset, hp]]
        rw [show mget ((k, v) :: ps) k2 = mget ps k2 by simp [mget, h]]
        rw [show mget (p :: ps) k2 = mget ps k2 by simp [mget, hp ▸ h]]
      · simp [mset, hp, mget, ih]

theorem mget_nil {κ α : Type} [DecidableEq κ] (k : κ) :
    mget ([] : JMap κ α) k = none := rfl

theorem mem_keys_iff_mget {κ α : Type} [DecidableEq κ] (l : JMap κ α) (k : κ) :
    k ∈ keys l ↔ mget l k ≠ none := by
  induction l with
  | nil => simp [keys, mget]
  | cons p ps ih =>
      by_cases h : p.1 = k
      · simp [keys, mget, h]
      · simpa [keys, mget, h, Ne.symm h] using ih

theorem mset_eq_append {κ α : Type} [DecidableEq κ] (l : JMap κ α) (k : κ) (v : α)
    (h : mget l k = none) : mset l k v = l ++ [(k, v)] := by
  induction l with
  | nil => simp [mset]
  | cons p ps ih =>
      by_cases hp : p.1 = k
      · simp [mget, hp] at h
      · simp only [mget, hp, if_false] at h
        simp [mset, hp, ih h]

theorem keys_mset_of_mem {κ α : Type} [DecidableEq κ] (l : JMap κ α) (k : κ) (v : α)
    (h : mget l k ≠ none) : keys (mset l k v) = keys l := by
  induction l with
  | nil => simp [mget] at h
  | cons p ps ih =>
      by_cases hp : p.1 = k
      · simp [mset, hp, keys]
      · simp only [mget, hp, if_false] at h
        have := ih h
        simp only [keys, List.map] at this ⊢
        simp [mset, hp, this]

theorem length_mset_of_mem {κ α : Type} [DecidableEq κ] (l : JMap κ α) (k : κ) (v : α)
    (h : mget l k ≠ none) : (mset l k v).length = l.length := by
  induction l with
  | nil => simp [mget] at h
  | cons p ps ih =>
      by_cases hp : p.1 = k
      · simp [mset, hp]
      · simp only [mget, hp, if_false] at h
        simp [mset, hp, ih h]

theorem mget_mset_cases {κ α : Type} [DecidableEq κ] (l : JMap κ α) (k k2 : κ) (v w : α)
    (h : mget (mset l k v) k2 = some w) : (k2 = k ∧ w = v) ∨ mget l k2 = some w := by
  by_cases hk : k = k2
  · subst hk
    rw [mget_mset_self] at h
    exact Or.inl ⟨rfl, (Option.some.injEq _ _ ▸ h).symm⟩
  · rw [mget_mset_ne _ _ _ _ hk] at h
    exact Or.inr h

theorem nodup_keys_mset {κ α : Type} [DecidableEq κ] (l : JMap κ α) (k : κ) (v : α)
    (h : (keys l).Nodup) : (keys (mset l k v)).Nodup := by
  by_cases hm : mget l k = none
  · rw [mset_eq_append _ _ _ hm]
    have hk : k ∉ keys l := by
      rw [mem_keys_iff_mget]
      simp [hm]
    have hkeys : keys (l ++ [(k, v)]) = keys l ++ [k] := by simp [keys]
    rw [hkeys, List.nodup_append]
    refine ⟨h, List.nodup_singleton k, ?_⟩
    intro a ha hb
    have : a = k := by simpa using hb
    exact hk (this ▸ ha)
  · rw [keys_mset_of_mem _ _ _ hm]
    exact h

theorem mget_eq_none_iff {κ α : Type} [DecidableEq κ] (l : JMap κ α) (k : κ) :
    mget l k = none ↔ k ∉ keys l := by
  rw [mem_keys_iff_mget]
  tauto

/- Structure of the multi-day branch of splitStayByDays. -/

theorem foldl_mset_range (base v : Int) :
    ∀ (n : Nat) (acc : JMap Int Int), (∀ k ∈ keys acc, k < base) →
      (List.range n).foldl (fun l (i : Nat) => mset l (base + (i : Int)) v) acc
        = acc ++ (List.range n).map (fun (i : Nat) => (base + (i : Int), v)) := by
  intro n
  induction n with
  | zero => intro acc h; simp
  | succ n ih =>
      intro acc h
      rw [List.range_succ, List.foldl_append, List.map_append]
      simp only [List.foldl_cons, List.foldl_nil, List.map_cons, List.map_nil]
      rw [ih acc h]
      have hnone :
          mget (acc ++ (List.range n).map (fun (i : Nat) => (base + (i : Int), v)))
            (base + (n : Int)) = none := by
        rw [mget_eq_none_iff]
        intro hmem
        rw [keys, List.map_append] at hmem
        rcases List.mem_append.mp hmem with h1 | h2
        · have := h _ h1
          omega
        · simp only [List.map_map, List.mem_map, Function.comp, List.mem_range] at h2
          obtain ⟨i, hi, hieq⟩ := h2
          omega
      rw [mset_eq_append _ _ _ hnone, List.append_assoc]

theorem splitStayByDays_eq_of_lt (tin tout : Int) (h : dayKey tin < dayKey tout) :
    splitStayByDays tin tout =
      (dayKey tin, diffMin (endOfDayMs tin) tin)
        :: (List.range (dayKey tout - dayKey tin - 1).toNat).map
             (fun (i : Nat) => (dayKey tin + 1 + (i : Int), 1440))
        ++ [(dayKey tout, diffMin tout (startOfDayMs tout))] := by
  have hne : dayKey tin ≠ dayKey tout := by omega
  have hmid : (((dayKey tout - dayKey tin - 1).toNat : Nat) : Int)
      = dayKey tout - dayKey tin - 1 :=
    Int.toNat_of_nonneg (by omega)
  unfold splitStayByDays
  rw [if_neg hne]
  dsimp only
  rw [foldl_mset_range (dayKey tin + 1) 1440 _ _ ?fresh]
  case fresh =>
    intro k hk
    simp [mset, keys] at hk
    omega
  rw [if_pos (by rw [hmid]; omega)]
  rw [mset_eq_append _ _ _ ?last]
  case last =>
    rw [mget_eq_none_iff]
    intro hmem
    rw [keys, List.map_append] at hmem
    rcases List.mem_append.mp hmem with h1 | h2
    · simp [mset, keys] at h1
      omega
    · simp only [List.map_map, List.mem_map, Function.comp, List.mem_range] at h2
      obtain ⟨i, hi, hieq⟩ := h2
      have : (i : Int) < dayKey tout - dayKey tin - 1 := by
        rw [← hmid]
        exact_mod_cast hi
      omega
  simp [mset]

theorem sumVals_splitStayByDays_of_lt (tin tout : Int) (h : dayKey tin < dayKey tout) :
    sumVals (splitStayByDays tin tout) =
      diffMin (endOfDayMs tin) tin + 1440 * (dayKey tout - dayKey tin - 1)
        + diffMin tout (startOfDayMs tout) := by
  have hmid : (((dayKey tout - dayKey tin - 1).toNat : Nat) : Int)
      = dayKey tout - dayKey tin - 1 := Int.toNat_of_nonneg (by omega)
  rw [splitStayByDays_eq_of_lt _ _ h]
  simp only [sumVals, List.map_cons, List.map_append, List.sum_cons, List.sum_append,
    List.map_map]
  have hcomp : (Prod.snd ∘ fun (i : Nat) => (dayKey tin + 1 + (i : Int), (1440 : Int)))
      = fun (_ : Nat) => (1440 : Int) := rfl
  rw [hcomp, List.map_const', List.sum_replicate, List.length_range, nsmul_eq_mul, hmid]
  simp only [List.map_nil, List.sum_nil, List.sum_cons, add_zero]
  ring

theorem splitStayByDays_conservation_core (tin tout : Int) (h : tin < tout) :
    sumVals (splitStayByDays tin tout) ≤ roundMin (tout - tin) ∧
    roundMin (tout - tin) ≤ sumVals (splitStayByDays tin tout) + 2 := by
  have hr : roundMin (tout - tin) = (tout - tin + 30000) / 60000 := by
    unfold roundMin msPerMinute
    exact Int.fdiv_eq_ediv _ (by decide)
  have e1 : dayKey tin = tin / 86400000 := by
    unfold dayKey msPerDay
    exact Int.fdiv_eq_ediv _ (by decide)
  have e2 : dayKey tout = tout / 86400000 := by
    unfold dayKey msPerDay
    exact Int.fdiv_eq_ediv _ (by decide)
  by_cases hd : dayKey tin = dayKey tout
  · have hsum : sumVals (splitStayByDays tin tout) = diffMin tout tin := by
      unfold splitStayByDays
      rw [if_pos hd]
      simp [sumVals, mset]
    have hdm : diffMin tout tin = (tout - tin) / 60000 := by
      unfold diffMin msPerMinute
      exact Int.tdiv_eq_ediv (by omega) (by decide)
    rw [hsum, hdm, hr]
    omega
  · have hlt : dayKey tin < dayKey tout := by
      have hle : dayKey tin ≤ dayKey tout := by
        rw [e1, e2]
        exact Int.ediv_le_ediv (by decide) h.le
      omega
    have hf : diffMin (endOfDayMs tin) tin
        = ((tin / 86400000 + 1) * 86400000 - 1 - tin) / 60000 := by
      have hnum : (0 : Int) ≤ (tin / 86400000 + 1) * 86400000 - 1 - tin := by omega
      unfold diffMin endOfDayMs msPerDay msPerMinute
      rw [e1]
      rw [Int.tdiv_eq_ediv hnum (by decide)]
    have hl : diffMin tout (startOfDayMs tout)
        = (tout - tout / 86400000 * 86400000) / 60000 := by
      have hnum : (0 : Int) ≤ tout - tout / 86400000 * 86400000 := by omega
      unfold diffMin startOfDayMs msPerDay msPerMinute
      rw [e2]
      rw [Int.tdiv_eq_ediv hnum (by decide)]
    rw [sumVals_splitStayByDays_of_lt _ _ hlt, hf, hl, hr, e1, e2]
    rw [e1, e2] at hlt
    omega

/-- Claim C2, amended.  For a stay spanning several calendar days,
splitStayByDays returns the first day with differenceInMinutes(endOfDay
checkIn, checkIn) minutes — endOfDay is the last millisecond 23:59:59.999
of the day and the difference truncates, so a 23:00 check-in yields 59
minutes, not the claimed 60 — every intermediate day with exactly 1440
minutes, and the last day with checkOut minus start-of-last-day truncated
to whole minutes (60 in the example). -/
theorem claim_c2_split_shape (tin tout : Int) (h : dayKey tin < dayKey tout) :
    splitStayByDays tin tout =
      (dayKey tin, diffMin (endOfDayMs tin) tin)
        :: (List.range (dayKey tout - dayKey tin - 1).toNat).map
             (fun (i : Nat) => (dayKey tin + 1 + (i : Int), 1440))
        ++ [(dayKey tout, diffMin tout (startOfDayMs tout))] :=
  splitStayByDays_eq_of_lt tin tout h

/-- Claim C2, counterexample to the stated form.  For checkIn at 23:00 of
day 0 and checkOut at 01:00 of day 2 the produced entries are 59, 1440
and 60 minutes: the first day does not receive the claimed 60 minutes. -/
theorem claim_c2_counterexample :
    splitStayByDays 82800000 176400000 = [(0, 59), (1, 1440), (2, 60)] ∧
    mget (splitStayByDays 82800000 176400000) 0 ≠ some 60 :=
  ⟨by decide, by decide⟩

/-- Claim C2, witness for the amended theorem at the concrete example
instants (checkIn day 0 at 23:00, checkOut day 2 at 01:00). -/
theorem claim_c2_witness :
    dayKey 82800000 < dayKey 176400000 ∧
    splitStayByDays 82800000 176400000 =
      (dayKey 82800000, diffMin (endOfDayMs 82800000) 82800000)
        :: (List.range (dayKey 176400000 - dayKey 82800000 - 1).toNat).map
             (fun (i : Nat) => (dayKey 82800000 + 1 + (i : Int), 1440))
        ++ [(dayKey 176400000, diffMin 176400000 (startOfDayMs 176400000))] :=
  ⟨by decide, claim_c2_split_shape 82800000 176400000 (by decide)⟩

/-- Claim C3, amended.  For every pair of instants with checkIn before
checkOut, the sum of the values produced by splitStayByDays equals the
rounded elapsed minutes within a two-minute tolerance — never above, and
short by at most two minutes.  The one-minute tolerance of the original
claim fails (see the counterexample theorem). -/
theorem claim_c3_conservation (tin tout : Int) (h : tin < tout) :
    sumVals (splitStayByDays tin tout) ≤ roundMin (tout - tin) ∧
    roundMin (tout - tin) ≤ sumVals (splitStayByDays tin tout) + 2 :=
  splitStayByDays_conservation_core tin tout h

/-- Claim C3, counterexample to the stated one-minute tolerance.  For
checkIn at 23:59:00.000 of day 0 and checkOut at 00:00:36.000 of day 1
the split values sum to 0 while the rounded elapsed time is 2 minutes:
the deviation is 2, exceeding the claimed tolerance of 1. -/
theorem claim_c3_counterexample :
    (86340000 : Int) < 86436000 ∧
    sumVals (splitStayByDays 86340000 86436000) = 0 ∧
    roundMin (86436000 - 86340000) = 2 ∧
    ¬ (roundMin (86436000 - 86340000)
        - sumVals (splitStayByDays 86340000 86436000)).natAbs ≤ 1 :=
  ⟨by decide, by decide, by decide, by decide⟩

/-- Claim C3, witness for the amended theorem at the concrete multi-day
example (checkIn day 0 at 23:00, checkOut day 2 at 01:00: the sum is 1559
and the rounded elapsed time 1560). -/
theorem claim_c3_witness :
    (82800000 : Int) < 176400000 ∧
    (sumVals (splitStayByDays 82800000 176400000) ≤ roundMin (176400000 - 82800000) ∧
     roundMin (176400000 - 82800000) ≤ sumVals (splitStayByDays 82800000 176400000) + 2) :=
  ⟨by decide, claim_c3_conservation 82800000 176400000 (by decide)⟩

/- Properties of the greedy matching fold. -/

theorem pickLatest_foldl_spec (l : List Record) :
    ∀ acc : Option Record,
      (∀ r, l.foldl pickLatest acc = some r →
        (acc = some r ∨ r ∈ l) ∧ (∀ q ∈ l, q.timestamp ≤ r.timestamp) ∧
          (∀ b, acc = some b → b.timestamp ≤ r.timestamp)) ∧
      (l.foldl pickLatest acc = none → acc = none ∧ l = []) := by
  induction l with
  | nil =>
      intro acc
      refine ⟨?_, ?_⟩
      · intro r h
        simp only [List.foldl_nil] at h
        refine ⟨Or.inl h, ?_, ?_⟩
        · intro q hq
          simp at hq
        · intro b hb
          rw [h] at hb
          injection hb with hb2
          rw [hb2]
      · intro h
        simp only [List.foldl_nil] at h
        exact ⟨h, rfl⟩
  | cons x xs ih =>
      intro acc
      refine ⟨?_, ?_⟩
      · intro r h
        rw [List.foldl_cons] at h
        obtain ⟨hmem, hmax, hacc2⟩ := (ih (pickLatest acc x)).1 r h
        have hxr : x.timestamp ≤ r.timestamp := by
          cases hacc : acc with
          | none =>
              apply hacc2
              rw [hacc]
              rfl
          | some b =>
              by_cases hlt : b.timestamp < x.timestamp
              · apply hacc2
                rw [hacc]
                simp [pickLatest, hlt]
              · have hbr : b.timestamp ≤ r.timestamp := by
                  apply hacc2
                  rw [hacc]
                  simp [pickLatest, hlt]
                omega
        refine ⟨?_, ?_, ?_⟩
        · rcases hmem with heq | hm
          · cases hacc : acc with
            | none =>
                rw [hacc] at heq
                have hx2 : x = r := by
                  have hpl : pickLatest none x = some x := rfl
                  rw [hpl] at heq
                  injection heq
                exact Or.inr (hx2 ▸ List.mem_cons_self x xs)
            | some b =>
                rw [hacc] at heq
                by_cases hlt : b.timestamp < x.timestamp
                · have hx2 : x = r := by
                    simp only [pickLatest, if_pos hlt] at heq
                    injection heq
                  exact Or.inr (hx2 ▸ List.mem_cons_self x xs)
                · have hb2 : b = r := by
                    simp only [pickLatest, if_neg hlt] at heq
                    injection heq
                  exact Or.inl (by rw [hb2])
          · exact Or.inr (List.mem_cons_of_mem x hm)
        · intro q hq
          rcases List.mem_cons.mp hq with hq1 | hq2
          · rw [hq1]
            exact hxr
          · exact hmax q hq2
        · intro b hb
          by_cases hlt : b.timestamp < x.timestamp
          · omega
          · apply hacc2
            rw [hb]
            simp [pickLatest, hlt]
      · intro h
        rw [List.foldl_cons] at h
        obtain ⟨h1, _⟩ := (ih (pickLatest acc x)).2 h
        cases hacc : acc with
        | none =>
            rw [hacc] at h1
            exact absurd h1 (by simp [pickLatest])
        | some b =>
            rw [hacc] at h1
            by_cases hlt : b.timestamp < x.timestamp
            · simp [pickLatest, hlt] at h1
            · simp [pickLatest, hlt] at h1

theorem findMatchingIn_spec (ins : List Record) (t : Int) :
    (∀ r, findMatchingIn ins t = some r →
        r ∈ ins ∧ r.timestamp < t ∧
          ∀ q ∈ ins, q.timestamp < t → q.timestamp ≤ r.timestamp) ∧
    (findMatchingIn ins t = none → ∀ q ∈ ins, ¬ q.timestamp < t) := by
  constructor
  · intro r h
    unfold findMatchingIn at h
    obtain ⟨hmem, hmax, _⟩ := (pickLatest_foldl_spec _ none).1 r h
    have hrmem : r ∈ ins.filter (fun x => x.timestamp < t) := by
      rcases hmem with h1 | h1
      · exact absurd h1 (by simp)
      · exact h1
    rw [List.mem_filter] at hrmem
    refine ⟨hrmem.1, by simpa using hrmem.2, ?_⟩
    intro q hq hqt
    exact hmax q (List.mem_filter.mpr ⟨hq, by simpa using hqt⟩)
  · intro h q hq hqt
    unfold findMatchingIn at h
    obtain ⟨_, hnil⟩ := (pickLatest_foldl_spec _ none).2 h
    have hqmem : q ∈ ins.filter (fun x => x.timestamp < t) :=
      List.mem_filter.mpr ⟨hq, by simpa using hqt⟩
    rw [hnil] at hqmem
    simp at hqmem

/-- Claim C4, confirmed.  Inside calculateStats every check-out is matched
independently: the matched record is an in record with timestamp strictly
earlier than the check-out and of maximal timestamp among those, and no
match is returned exactly when no in record strictly precedes the
check-out. -/
theorem claim_c4_greedy_matching (ins : List Record) (t : Int) :
    (∀ r, findMatchingIn ins t = some r →
        r ∈ ins ∧ r.timestamp < t ∧
          ∀ q ∈ ins, q.timestamp < t → q.timestamp ≤ r.timestamp) ∧
    (findMatchingIn ins t = none → ∀ q ∈ ins, ¬ q.timestamp < t) :=
  findMatchingIn_spec ins t

/-- Claim C4, witness: on the in records with timestamps 0 and 100 and a
check-out instant 50, the match is the record at 0; the theorem applies
with its hypothesis discharged by computation. -/
theorem claim_c4_witness :
    (⟨RecordType.rin, 0, none⟩ : Record)
        ∈ ([⟨RecordType.rin, 0, none⟩, ⟨RecordType.rin, 100, none⟩] : List Record) ∧
    (⟨RecordType.rin, 0, none⟩ : Record).timestamp < 50 ∧
    ∀ q ∈ ([⟨RecordType.rin, 0, none⟩, ⟨RecordType.rin, 100, none⟩] : List Record),
      q.timestamp < 50 → q.timestamp ≤ (⟨RecordType.rin, 0, none⟩ : Record).timestamp :=
  (claim_c4_greedy_matching [⟨RecordType.rin, 0, none⟩, ⟨RecordType.rin, 100, none⟩] 50).1
    ⟨RecordType.rin, 0, none⟩ (by decide)

theorem dayKey_mono {a b : Int} (h : a ≤ b) : dayKey a ≤ dayKey b := by
  unfold dayKey msPerDay
  rw [Int.fdiv_eq_ediv _ (by decide), Int.fdiv_eq_ediv _ (by decide)]
  exact Int.ediv_le_ediv (by decide) h

theorem length_insertByTotalDesc (x : String × Int) (l : List (String × Int)) :
    (insertByTotalDesc x l).length = l.length + 1 := by
  induction l with
  | nil => rfl
  | cons y ys ih =>
      by_cases h : x.2 < y.2
      · simp only [insertByTotalDesc, if_pos h, List.length_cons, ih]
      · simp only [insertByTotalDesc, if_neg h, List.length_cons]

/-- Claim C6, confirmed.  The embedded functions are total by
construction; the one source construct whose termination is not
syntactic, the intermediate-day while loop of splitStayByDays, satisfies
its termination condition on every pair it is actually invoked on inside
calculateStats, because a matched check-in is strictly earlier than its
check-out and the day index is monotone.  In addition compareMembersStats
returns a full result (one entry per member) on every input. -/
theorem claim_c6_totality :
    (∀ (records : List Record) (r m : Record),
        r ∈ records.filter (fun x => x.type = RecordType.rout) →
        truthyDur r.duration = true →
        findMatchingIn (records.filter (fun x => x.type = RecordType.rin)) r.timestamp
          = some m →
        splitTerminates m.timestamp r.timestamp) ∧
    (∀ ms : JMap String Stats, (compareMembersStats ms).length = ms.length) := by
  constructor
  · intro records r m _ _ hm
    have hspec := (findMatchingIn_spec
      (records.filter (fun x => x.type = RecordType.rin)) r.timestamp).1 m hm
    have hlt : m.timestamp < r.timestamp := hspec.2.1
    have hday := dayKey_mono hlt.le
    unfold splitTerminates
    omega
  · intro ms
    have hfold : ∀ l : List (String × Int), (l.foldr insertByTotalDesc []).length = l.length := by
      intro l
      induction l with
      | nil => rfl
      | cons x xs ih =>
          simp only [List.foldr_cons, length_insertByTotalDesc, ih, List.length_cons]
    unfold compareMembersStats
    rw [hfold, List.length_map]

/-- Claim C6, witness: an in record at instant 0 matched to a check-out at
day 1, 01:00 satisfies the termination condition of the loop. -/
theorem claim_c6_witness : splitTerminates 0 90000000 :=
  claim_c6_totality.1
    [⟨RecordType.rin, 0, none⟩, ⟨RecordType.rout, 90000000, some 60⟩]
    ⟨RecordType.rout, 90000000, some 60⟩ ⟨RecordType.rin, 0, none⟩
    (by decide) (by decide) (by decide)

/- Behaviour of the daily aggregation of calculatePeriodStats. -/

/-- Records that contribute to day d in calculatePeriodStats: out records
with truthy duration whose own timestamp falls on day d. -/
def isOutOn (d : Int) (r : Record) : Bool :=
  decide (r.type = RecordType.rout) && truthyDur r.duration
    && decide (dayKey r.timestamp = d)

/-- Total duration the out records falling on day d carry. -/
def sumOutDurOn (records : List Record) (d : Int) : Int :=
  ((records.filter (isOutOn d)).map (fun r => r.duration.getD 0)).sum

theorem isOutOn_of_not_counted (d : Int) (r : Record)
    (hout : ¬ (r.type = RecordType.rout ∧ truthyDur r.duration = true)) :
    isOutOn d r = false := by
  unfold isOutOn
  by_cases hA : r.type = RecordType.rout
  · have hB : truthyDur r.duration = false := by
      cases hB2 : truthyDur r.duration
      · rfl
      · exact absurd ⟨hA, hB2⟩ hout
    simp [hA, hB]
  · simp [hA]

theorem periodFold_mgetD (d : Int) :
    ∀ (rs : List Record) (acc : JMap Int Int),
      mgetD (rs.foldl periodStep acc) d 0 = mgetD acc d 0 + sumOutDurOn rs d := by
  intro rs
  induction rs with
  | nil =>
      intro acc
      simp [sumOutDurOn]
  | cons r rest ih =>
      intro acc
      rw [List.foldl_cons, ih]
      by_cases hout : r.type = RecordType.rout ∧ truthyDur r.duration = true
      · by_cases hday : dayKey r.timestamp = d
        · have hstep : periodStep acc r
              = mset acc d (mgetD acc d 0 + r.duration.getD 0) := by
            unfold periodStep
            rw [if_pos hout, hday]
          have hrel : isOutOn d r = true := by
            simp [isOutOn, hout.1, hout.2, hday]
          rw [hstep]
          have h2 : mgetD (mset acc d (mgetD acc d 0 + r.duration.getD 0)) d 0
              = mgetD acc d 0 + r.duration.getD 0 := by
            unfold mgetD
            rw [mget_mset_self]
            rfl
          rw [h2]
          unfold sumOutDurOn
          rw [List.filter_cons_of_pos hrel]
          simp only [List.map_cons, List.sum_cons]
          ring
        · have hrel : isOutOn d r = false := by
            simp [isOutOn, hday]
          have hstep : periodStep acc r
              = mset acc (dayKey r.timestamp)
                  (mgetD acc (dayKey r.timestamp) 0 + r.duration.getD 0) := by
            unfold periodStep
            rw [if_pos hout]
          rw [hstep]
          have h2 : mgetD (mset acc (dayKey r.timestamp)
              (mgetD acc (dayKey r.timestamp) 0 + r.duration.getD 0)) d 0
              = mgetD acc d 0 := by
            unfold mgetD
            rw [mget_mset_ne _ _ _ _ hday]
          rw [h2]
          unfold sumOutDurOn
          rw [List.filter_cons_of_neg (by simp [hrel])]
      · have hstep : periodStep acc r = acc := by
          unfold periodStep
          rw [if_neg hout]
        rw [hstep]
        unfold sumOutDurOn
        rw [List.filter_cons_of_neg (by simp [isOutOn_of_not_counted d r hout])]

theorem periodFold_mget_none (d : Int) :
    ∀ (rs : List Record) (acc : JMap Int Int),
      (rs.foldl periodStep acc |> mget) d = none ↔
        mget acc d = none ∧ rs.any (isOutOn d) = false := by
  intro rs
  induction rs with
  | nil =>
      intro acc
      simp
  | cons r rest ih =>
      intro acc
      rw [List.foldl_cons, ih]
      by_cases hout : r.type = RecordType.rout ∧ truthyDur r.duration = true
      · by_cases hday : dayKey r.timestamp = d
        · have hstep : periodStep acc r
              = mset acc d (mgetD acc d 0 + r.duration.getD 0) := by
            unfold periodStep
            rw [if_pos hout, hday]
          have hrel : isOutOn d r = true := by
            simp [isOutOn, hout.1, hout.2, hday]
          constructor
          · rintro ⟨h1, _⟩
            rw [hstep, mget_mset_self] at h1
            cases h1
          · rintro ⟨_, h2⟩
            simp [List.any_cons, hrel] at h2
        · have hrel : isOutOn d r = false := by
            simp [isOutOn, hday]
          have hstep : periodStep acc r
              = mset acc (dayKey r.timestamp)
                  (mgetD acc (dayKey r.timestamp) 0 + r.duration.getD 0) := by
            unfold periodStep
            rw [if_pos hout]
          rw [hstep, mget_mset_ne _ _ _ _ hday]
          simp [List.any_cons, hrel]
      · have hstep : periodStep acc r = acc := by
          unfold periodStep
          rw [if_neg hout]
        rw [hstep]
        simp [List.any_cons, isOutOn_of_not_counted d r hout]

/-- Claim C1, amended.  The DailyMinutes mapping built by
calculatePeriodStats does not apportion midnight-crossing stays: it
attributes, for any calendar day, exactly the summed stored durations of
the out records with truthy duration whose own timestamp falls on that
day, and a day carries an entry exactly when such a record exists.  The
clipped-overlap invariant of the original claim fails on this function
(see the counterexample theorem); the day-splitting behaviour lives in
calculateStats instead. -/
theorem claim_c1_period_daily (records : List Record) (d : Int) :
    mgetD (periodDailyMinutes records) d 0 = sumOutDurOn records d ∧
    (mget (periodDailyMinutes records) d = none ↔
      records.any (isOutOn d) = false) := by
  constructor
  · have h := periodFold_mgetD d records []
    unfold periodDailyMinutes
    simpa [mgetD, mget] using h
  · have h := periodFold_mget_none d records []
    unfold periodDailyMinutes
    simpa [mget] using h

/-- Claim C1, counterexample to the stated form.  For a check-in at 23:00
of day 0 matched (in calculateStats) to a check-out at 01:00 of day 1
with stored duration 120, the stay overlaps day 0 by 60 clipped minutes,
yet the mapping built by calculatePeriodStats attributes nothing to day 0
and the whole 120 minutes to day 1, the day of the check-out. -/
theorem claim_c1_counterexample :
    mget (periodDailyMinutes
        [⟨RecordType.rin, 82800000, none⟩, ⟨RecordType.rout, 90000000, some 120⟩]) 0
      = none ∧
    mget (periodDailyMinutes
        [⟨RecordType.rin, 82800000, none⟩, ⟨RecordType.rout, 90000000, some 120⟩]) 1
      = some 120 ∧
    specClippedDayMinutes [(82800000, 90000000)] 0 = 60 ∧
    findMatchingIn
        ([⟨RecordType.rin, 82800000, none⟩,
          ⟨RecordType.rout, 90000000, some 120⟩].filter
            (fun r => r.type = RecordType.rin)) 90000000
      = some ⟨RecordType.rin, 82800000, none⟩ :=
  ⟨by decide, by decide, by decide, by decide⟩

/-- Claim C5, amended.  A check-out with a falsy duration (absent or zero)
is skipped entirely by the calculateStats fold, regardless of whether a
matching check-in exists; a check-out with a truthy (nonzero) duration
and no strictly preceding check-in has that duration attributed entirely
to the calendar day of its own timestamp.  The original claim fails for a
stored duration of 0, which is present yet skipped (see the
counterexample theorem). -/
theorem claim_c5_unmatched_checkout (ins : List Record) (dm : JMap Int Int) (r : Record) :
    (truthyDur r.duration = false → statsStep ins dm r = dm) ∧
    (truthyDur r.duration = true → findMatchingIn ins r.timestamp = none →
      statsStep ins dm r
        = mset dm (dayKey r.timestamp)
            (mgetD dm (dayKey r.timestamp) 0 + r.duration.getD 0)) := by
  constructor
  · intro h
    unfold statsStep
    rw [if_pos h]
  · intro h1 h2
    unfold statsStep
    rw [if_neg (by simp [h1]), h2]

/-- Claim C5, counterexample to the stated form.  A single check-out whose
stored duration is explicitly 0 has a duration and no preceding check-in,
yet nothing is attributed to its day: the daily mapping stays empty and
daysPresent is 0, where the claim would give the day an entry. -/
theorem claim_c5_counterexample :
    (⟨RecordType.rout, 122400000, some 0⟩ : Record).duration ≠ none ∧
    findMatchingIn
        (([⟨RecordType.rout, 122400000, some 0⟩] : List Record).filter
          (fun r => r.type = RecordType.rin)) 122400000 = none ∧
    mget (dailyMinutesOf [⟨RecordType.rout, 122400000, some 0⟩])
      (dayKey 122400000) = none ∧
    (calculateStats [⟨RecordType.rout, 122400000, some 0⟩]).daysPresent = 0 :=
  ⟨by decide, by decide, by decide, by decide⟩

/-- Claim C5, witness: the single unmatched check-out at day 1, 10:00 with
duration 30 yields the daily map with 30 minutes on day 1 and the summary
totalTime 30, averageTime 30, daysPresent 1. -/
theorem claim_c5_witness :
    statsStep [] [] ⟨RecordType.rout, 122400000, some 30⟩ = [(1, 30)] ∧
    calculateStats [⟨RecordType.rout, 122400000, some 30⟩] = ⟨30, 30, 1⟩ := by
  constructor
  · rw [(claim_c5_unmatched_checkout [] []
      ⟨RecordType.rout, 122400000, some 30⟩).2 (by decide) (by decide)]
    decide
  · unfold calculateStats
    rw [if_neg (by decide)]
    have hdm : dailyMinutesOf [⟨RecordType.rout, 122400000, some 30⟩] = [(1, 30)] := by
      decide
    simp only [hdm, sumVals, List.map_cons, List.map_nil, List.sum_cons, List.sum_nil,
      List.length_cons, List.length_nil, Stats.mk.injEq]
    norm_num

/- The averageTime invariant. -/

theorem statsInv_mk (t : Int) (d : Nat) :
    statsInv ⟨t, if 0 < d then (t : Rat) / (d : Rat) else 0, d⟩ := by
  unfold statsInv
  dsimp only
  constructor
  · intro h
    rw [if_pos h]
  · intro h
    rw [if_neg (by omega)]

theorem statsInv_one_day (m : Int) : statsInv ⟨m, (m : Rat), 1⟩ := by
  unfold statsInv
  dsimp only
  constructor
  · intro _
    norm_num
  · intro h
    exact absurd h (by omega)

theorem mget_foldl_mset_values {κ β : Type} [DecidableEq κ] (K : β → κ) (V : β → Stats) :
    ∀ (l : List β) (init : JMap κ Stats),
      (∀ k v, mget init k = some v → statsInv v) →
      (∀ b, statsInv (V b)) →
      ∀ k v, mget (l.foldl (fun acc b => mset acc (K b) (V b)) init) k = some v →
        statsInv v := by
  intro l
  induction l with
  | nil =>
      intro init hinit _ k v h
      exact hinit k v h
  | cons b bs ih =>
      intro init hinit hV k v h
      rw [List.foldl_cons] at h
      refine ih (mset init (K b) (V b)) ?_ hV k v h
      intro k2 v2 h2
      rcases mget_mset_cases _ _ _ _ _ h2 with ⟨_, hv⟩ | h3
      · rw [hv]
        exact hV b
      · exact hinit k2 v2 h3

theorem statsInv_summaryOf (m : JMap Int Int) : statsInv (summaryOf m) :=
  statsInv_mk _ _

theorem dailyStatsOf_inv (dm : JMap Int Int) (k : Int) (v : Stats)
    (h : mget (dailyStatsOf dm) k = some v) : statsInv v := by
  unfold dailyStatsOf at h
  exact mget_foldl_mset_values (fun p => p.1)
    (fun p => ⟨p.2, (p.2 : Rat), 1⟩) dm []
    (by intro k2 v2 h2; simp [mget] at h2)
    (fun p => statsInv_one_day p.2) k v h

theorem bucketRollup_inv {κ : Type} [DecidableEq κ] (keyOf : Int → κ) (dm : JMap Int Int)
    (k : κ) (v : Stats) (h : mget (bucketRollup keyOf dm) k = some v) : statsInv v := by
  unfold bucketRollup at h
  exact mget_foldl_mset_values (fun p => p.1)
    (fun p =>
      ⟨p.2,
       if 0 < (mgetD (bucketAccum keyOf dm).2 p.1 []).length then
         (p.2 : Rat) / (((mgetD (bucketAccum keyOf dm).2 p.1 []).length : Nat) : Rat)
       else 0,
       (mgetD (bucketAccum keyOf dm).2 p.1 []).length⟩)
    (bucketAccum keyOf dm).1 []
    (by intro k2 v2 h2; simp [mget] at h2)
    (fun p => statsInv_mk p.2 (mgetD (bucketAccum keyOf dm).2 p.1 []).length)
    k v h

/-- Claim C7, confirmed.  Every Stats record the two entry points produce
— the calculateStats summary, every entry of the daily, weekly and
monthly maps, and the weekday, weekend and total records of
calculatePeriodStats — satisfies averageTime = totalTime / daysPresent
when daysPresent is positive and averageTime = 0 when daysPresent is
zero. -/
theorem claim_c7_average_invariant (records : List Record) (s e : Int) :
    statsInv (calculateStats records) ∧
    (∀ k v, mget (calculatePeriodStats records s e).daily k = some v → statsInv v) ∧
    (∀ k v, mget (calculatePeriodStats records s e).weekly k = some v → statsInv v) ∧
    (∀ k v, mget (calculatePeriodStats records s e).monthly k = some v → statsInv v) ∧
    statsInv (calculatePeriodStats records s e).weekday ∧
    statsInv (calculatePeriodStats records s e).weekend ∧
    statsInv (calculatePeriodStats records s e).total := by
  refine ⟨?_, ?_, ?_, ?_, ?_, ?_, ?_⟩
  · by_cases h : records.length = 0
    · unfold calculateStats
      rw [if_pos h]
      unfold statsInv
      dsimp only
      exact ⟨fun h0 => absurd h0 (by omega), fun _ => rfl⟩
    · unfold calculateStats
      rw [if_neg h]
      exact statsInv_mk _ _
  · intro k v hv
    exact dailyStatsOf_inv (periodDailyMinutes records) k v hv
  · intro k v hv
    exact bucketRollup_inv weekKey (periodDailyMinutes records) k v hv
  · intro k v hv
    exact bucketRollup_inv monthKey (periodDailyMinutes records) k v hv
  · exact statsInv_summaryOf _
  · exact statsInv_summaryOf _
  · exact statsInv_summaryOf _

/-- Claim C7, witness: on the single check-out of day 0 with duration 30
the daily map of calculatePeriodStats holds the entry with totalTime 30,
averageTime 30 and daysPresent 1, and the theorem yields its invariant
with the membership hypothesis discharged by computation. -/
theorem claim_c7_witness : statsInv ⟨30, (30 : Rat), 1⟩ :=
  (claim_c7_average_invariant [⟨RecordType.rout, 36000000, some 30⟩] 0 0).2.1
    0 ⟨30, (30 : Rat), 1⟩ (by decide)

/- The weekday / weekend partition. -/

theorem nodup_keys_foldl_periodStep :
    ∀ (rs : List Record) (acc : JMap Int Int), (keys acc).Nodup →
      (keys (rs.foldl periodStep acc)).Nodup := by
  intro rs
  induction rs with
  | nil =>
      intro acc h
      exact h
  | cons r rest ih =>
      intro acc h
      rw [List.foldl_cons]
      apply ih
      unfold periodStep
      by_cases hc : r.type = RecordType.rout ∧ truthyDur r.duration = true
      · rw [if_pos hc]
        exact nodup_keys_mset _ _ _ h
      · rw [if_neg hc]
        exact h

theorem nodup_keys_periodDailyMinutes (records : List Record) :
    (keys (periodDailyMinutes records)).Nodup :=
  nodup_keys_foldl_periodStep records [] (by simp [keys])

theorem weekdaySplit_aux :
    ∀ (dm : JMap Int Int) (wd we : JMap Int Int),
      (keys dm).Nodup →
      (∀ k ∈ keys dm, k ∉ keys wd) →
      (∀ k ∈ keys dm, k ∉ keys we) →
      dm.foldl
        (fun acc p =>
          if isWeekendDay p.1 then (acc.1, mset acc.2 p.1 p.2)
          else (mset acc.1 p.1 p.2, acc.2)) (wd, we)
        = (wd ++ dm.filter (fun p => !isWeekendDay p.1),
           we ++ dm.filter (fun p => isWeekendDay p.1)) := by
  intro dm
  induction dm with
  | nil =>
      intro wd we _ _ _
      simp
  | cons p rest ih =>
      intro wd we hnd hwd hwe
      have hkeys : keys (p :: rest) = p.1 :: keys rest := rfl
      rw [hkeys, List.nodup_cons] at hnd
      have hp1 : p.1 ∈ keys (p :: rest) := by
        rw [hkeys]
        exact List.mem_cons_self _ _
      rw [List.foldl_cons]
      by_cases hw : isWeekendDay p.1
      · rw [if_pos hw]
        have hwe1 : mget we p.1 = none :=
          (mget_eq_none_iff we p.1).mpr (hwe p.1 hp1)
        rw [mset_eq_append _ _ _ hwe1, Prod.mk.eta]
        rw [ih wd (we ++ [p]) hnd.2 ?hwd2 ?hwe2]
        case hwd2 =>
          intro k hk
          exact hwd k (by rw [hkeys]; exact List.mem_cons_of_mem _ hk)
        case hwe2 =>
          intro k hk
          have hkeys2 : keys (we ++ [p]) = keys we ++ [p.1] := by simp [keys]
          rw [hkeys2]
          intro hmem
          rcases List.mem_append.mp hmem with h1 | h1
          · exact hwe k (by rw [hkeys]; exact List.mem_cons_of_mem _ hk) h1
          · have : k = p.1 := by simpa using h1
            exact hnd.1 (this ▸ hk)
        rw [List.filter_cons_of_neg (by simp [hw]), List.filter_cons_of_pos (by simpa using hw)]
        rw [List.append_assoc]
        rfl
      · rw [if_neg hw]
        have hwd1 : mget wd p.1 = none :=
          (mget_eq_none_iff wd p.1).mpr (hwd p.1 hp1)
        rw [mset_eq_append _ _ _ hwd1, Prod.mk.eta]
        rw [ih (wd ++ [p]) we hnd.2 ?hwd2 ?hwe2]
        case hwd2 =>
          intro k hk
          have hkeys2 : keys (wd ++ [p]) = keys wd ++ [p.1] := by simp [keys]
          rw [hkeys2]
          intro hmem
          rcases List.mem_append.mp hmem with h1 | h1
          · exact hwd k (by rw [hkeys]; exact List.mem_cons_of_mem _ hk) h1
          · have : k = p.1 := by simpa using h1
            exact hnd.1 (this ▸ hk)
        case hwe2 =>
          intro k hk
          exact hwe k (by rw [hkeys]; exact List.mem_cons_of_mem _ hk)
        rw [List.filter_cons_of_pos (by simpa using hw), List.filter_cons_of_neg (by simp [hw])]
        rw [List.append_assoc]
        rfl

theorem weekdaySplit_eq_filters (dm : JMap Int Int) (h : (keys dm).Nodup) :
    weekdaySplit dm
      = (dm.filter (fun p => !isWeekendDay p.1), dm.filter (fun p => isWeekendDay p.1)) := by
  unfold weekdaySplit
  simpa using weekdaySplit_aux dm [] [] h (by simp [keys]) (by simp [keys])

theorem filter_length_partition {α : Type} (l : List α) (p : α → Bool) :
    (l.filter (fun x => !p x)).length + (l.filter p).length = l.length := by
  induction l with
  | nil => rfl
  | cons x xs ih =>
      by_cases h : p x
      · rw [List.filter_cons_of_neg (by simp [h]), List.filter_cons_of_pos (by simpa using h)]
        simp only [List.length_cons]
        omega
      · rw [List.filter_cons_of_pos (by simpa using h), List.filter_cons_of_neg (by simpa using h)]
        simp only [List.length_cons]
        omega

theorem mem_keys_filter (l : JMap Int Int) (q : Int → Bool) (d : Int) :
    d ∈ keys (l.filter (fun p => q p.1)) ↔ d ∈ keys l ∧ q d = true := by
  unfold keys
  constructor
  · intro h
    rcases List.mem_map.mp h with ⟨p, hp, hpd⟩
    rcases List.mem_filter.mp hp with ⟨hmem, hq⟩
    exact ⟨List.mem_map.mpr ⟨p, hmem, hpd⟩, hpd ▸ hq⟩
  · rintro ⟨h1, h2⟩
    rcases List.mem_map.mp h1 with ⟨p, hp, hpd⟩
    exact List.mem_map.mpr ⟨p, List.mem_filter.mpr ⟨hp, hpd ▸ h2⟩, hpd⟩

/-- Claim C8, confirmed.  Every day key of the DailyMinutes mapping lands
in exactly one of the weekdayMinutes and weekendMinutes maps of
calculatePeriodStats, according to whether its calendar date is a
weekend, and the day counts of the two partitions add up to the day count
of the total record. -/
theorem claim_c8_weekend_partition (records : List Record) (s e : Int) :
    (calculatePeriodStats records s e).weekday.daysPresent
        + (calculatePeriodStats records s e).weekend.daysPresent
      = (calculatePeriodStats records s e).total.daysPresent ∧
    ∀ d, d ∈ keys (periodDailyMinutes records) →
      ((d ∈ keys (weekdaySplit (periodDailyMinutes records)).1 ↔ isWeekendDay d = false) ∧
       (d ∈ keys (weekdaySplit (periodDailyMinutes records)).2 ↔ isWeekendDay d = true)) := by
  have hnd := nodup_keys_periodDailyMinutes records
  have hsp := weekdaySplit_eq_filters (periodDailyMinutes records) hnd
  constructor
  · have h1 : (calculatePeriodStats records s e).weekday.daysPresent
        = (weekdaySplit (periodDailyMinutes records)).1.length := rfl
    have h2 : (calculatePeriodStats records s e).weekend.daysPresent
        = (weekdaySplit (periodDailyMinutes records)).2.length := rfl
    have h3 : (calculatePeriodStats records s e).total.daysPresent
        = (periodDailyMinutes records).length := rfl
    rw [h1, h2, h3, hsp]
    exact filter_length_partition _ _
  · intro d hd
    rw [hsp]
    constructor
    · exact (mem_keys_filter _ (fun x => !isWeekendDay x) d).trans (by simp [hd])
    · exact (mem_keys_filter _ (fun x => isWeekendDay x) d).trans (by simp [hd])

/-- Claim C8, witness: with one check-out on day 2 (a Saturday) and one on
day 4 (a Monday), day 2 lies in the weekend partition; the membership
hypothesis of the theorem is discharged by computation. -/
theorem claim_c8_witness :
    (2 : Int) ∈ keys (weekdaySplit (periodDailyMinutes
      [⟨RecordType.rout, 208800000, some 30⟩, ⟨RecordType.rout, 381600000, some 45⟩])).2 :=
  ((claim_c8_weekend_partition
      [⟨RecordType.rout, 208800000, some 30⟩, ⟨RecordType.rout, 381600000, some 45⟩] 0 0).2
    2 (by decide)).2.mpr (by decide)

/-- Claim C9, confirmed.  On the empty record list calculateStats returns
the all-zero summary directly, and calculatePeriodStats returns empty
daily, weekly and monthly maps with all-zero weekday, weekend and total
records, for any startDate and endDate. -/
theorem claim_c9_empty_input (s e : Int) :
    calculateStats [] = ⟨0, 0, 0⟩ ∧
    (calculatePeriodStats [] s e).total = ⟨0, 0, 0⟩ ∧
    (calculatePeriodStats [] s e).daily = [] ∧
    (calculatePeriodStats [] s e).weekly = [] ∧
    (calculatePeriodStats [] s e).monthly = [] ∧
    (calculatePeriodStats [] s e).weekday = ⟨0, 0, 0⟩ ∧
    (calculatePeriodStats [] s e).weekend = ⟨0, 0, 0⟩ :=
  ⟨rfl, rfl, rfl, rfl, rfl, rfl, rfl⟩

/-- Claim C10, confirmed.  The startDate and endDate parameters of
calculatePeriodStats are never read: any two invocations on the same
record list return identical results whatever date ranges are passed, so
no restriction to the reporting period happens inside the function. -/
theorem claim_c10_dates_ignored (records : List Record) (s1 e1 s2 e2 : Int) :
    calculatePeriodStats records s1 e1 = calculatePeriodStats records s2 e2 := rfl
